import Mathlib

/-!
# NFA regular-expression engine (princeton_version.go)

A shallow embedding of `buildNFA`, `multipleSrcReach` and `NFA.recognize`, and of
the sparse set of package `sparse` (sparse_set.go).

* A Go `byte` is a natural number below 256; a `string`/`[]byte` is a `List Nat`.
* Positions (`int`) are natural numbers: every position the program handles is
  an index of the pattern or a sum of two of them.
* A Go map is an association list.  `graph` (`map[int]map[int]bool`) maps a
  position to its inner map, kept as the list of keys the inner map holds (the
  only value the program stores is `true`).  A position that has no entry in the
  outer map has the nil inner map.
* A run-time panic is an error value `Fault`.
* The order in which `range` enumerates a Go map is not specified.  Every
  `range` over a map goes through an enumeration function `ord`; the runs of the
  Go program are the runs of the model for the functions `ord` that return a
  permutation of their argument.
-/

namespace Princeton

/-- Run-time panics of the Go program. -/
inductive Fault where
  /-- Panic "assignment to entry in nil map". -/
  | nilMapWrite
  /-- Panic "index out of range". -/
  | indexOutOfRange
deriving DecidableEq, Repr

deriving instance DecidableEq for Except

/-- Byte `(`. -/
abbrev LPAREN : Nat := 40
/-- Byte `)`. -/
abbrev RPAREN : Nat := 41
/-- Byte `*`. -/
abbrev STAR : Nat := 42
/-- Byte `+`. -/
abbrev PLUS : Nat := 43
/-- Byte `-`. -/
abbrev DASH : Nat := 45
/-- Byte `.`. -/
abbrev DOT : Nat := 46
/-- Byte `?`. -/
abbrev QUESTION : Nat := 63
/-- Byte `[`. -/
abbrev LBRACKET : Nat := 91
/-- Byte `]`. -/
abbrev RBRACKET : Nat := 93
/-- Byte `|`. -/
abbrev BAR : Nat := 124

/-- The bytes of an ASCII string literal (used to write concrete inputs). -/
def bytes (s : String) : List Nat := s.toList.map Char.toNat

/-- Type `graph` is `map[int]map[int]bool`: each key of the outer map with the
keys of its inner map. -/
abbrev graph := List (Nat × List Nat)

/-- Type `intStack` is `[]int`; the model keeps the slice reversed, so the head
of the list is the last element of the slice (the top of the stack). -/
abbrev intStack := List Nat

/-- Struct `NFA`: the epsilon graph `g`, the pattern `re` and the class map `m`
(`map[int]int`, from a class member to the position of its `]`). -/
structure NFA where
  g : graph
  re : List Nat
  m : List (Nat × Nat)
deriving DecidableEq, Repr

/-- Indexing `xs[i]` of a slice: panics when `i` is out of range. -/
def idx (xs : List Nat) (i : Nat) : Except Fault Nat :=
  match xs[i]? with
  | some b => .ok b
  | none => .error .indexOutOfRange

/-- Map assignment `mp[k] = v` on an association list. -/
def mapSet {β : Type} (mp : List (Nat × β)) (k : Nat) (v : β) : List (Nat × β) :=
  match mp with
  | [] => [(k, v)]
  | (k0, v0) :: rest => if k0 = k then (k, v) :: rest else (k0, v0) :: mapSet rest k v

/-- Assignment `s[k] = true` on a `map[int]bool` kept as its list of keys. -/
def setInsert (s : List Nat) (k : Nat) : List Nat :=
  if k ∈ s then s else s ++ [k]

/-- Method `graph.addEdge`: `g[from][to] = true`.  The inner map `g[from]` is
nil when `from` is not a key of `g`, and an assignment into a nil map panics. -/
def addEdge (g : graph) (frm dst : Nat) : Except Fault graph :=
  match g.lookup frm with
  | none => .error .nilMapWrite
  | some inner => .ok (mapSet g frm (setInsert inner dst))

/-- Method `intStack.push`. -/
def push (s : intStack) (i : Nat) : intStack := i :: s

/-- Method `intStack.pop`: the popped element and the remaining stack; `(*s)[n-1]`
panics on the empty stack. -/
def pop (s : intStack) : Except Fault (Nat × intStack) :=
  match s with
  | [] => .error .indexOutOfRange
  | x :: rest => .ok (x, rest)

/-- Method `intStack.top`: `(*s)[len(*s)-1]` panics on the empty stack. -/
def top (s : intStack) : Except Fault Nat :=
  match s with
  | [] => .error .indexOutOfRange
  | x :: _ => .ok x

/-- Table `metaChar`; a byte that is not a key reads as `false`. -/
def metaChar (b : Nat) : Bool :=
  b == LPAREN || b == BAR || b == LBRACKET || b == RPAREN || b == RBRACKET
    || b == STAR || b == PLUS || b == QUESTION

/-- The local state of the loop of `buildNFA`. -/
structure BuildState where
  g : graph
  ops : intStack
  rightIdx : List (Nat × Nat)
deriving DecidableEq, Repr

/-- Loop `for re[ops.top()] == '|' { or := ops.pop(); orOpIdxes[or] = true }`:
the stack and the set `orOpIdxes` when the loop ends.  The call `ops.top()`
panics on the empty stack. -/
def popOrs (re : List Nat) : intStack → List Nat → Except Fault (intStack × List Nat)
  | [], _ => .error .indexOutOfRange
  | t :: rest, ors =>
    match idx re t with
    | .error e => .error e
    | .ok b => if b = BAR then popOrs re rest (setInsert ors t) else .ok (t :: rest, ors)

/-- Loop `for k := range orOpIdxes { g.addEdge(k, i); g.addEdge(lp, k+i) }`
over the keys in the order given. -/
def orEdges (lp i : Nat) : List Nat → graph → Except Fault graph
  | [], g => .ok g
  | k :: ks, g =>
    match addEdge g k i with
    | .error e => .error e
    | .ok g1 =>
      match addEdge g1 lp (k + i) with
      | .error e => .error e
      | .ok g2 => orEdges lp i ks g2

/-- Loop `for j := lp + 1; j < i; j++ { ... }` of the case `]`, from the current
`j`.  Every iteration increases `j`, so `fuel = i - j` iterations reach `j >= i`. -/
def classLoop (re : List Nat) (lp i : Nat) :
    Nat → Nat → graph → List (Nat × Nat) → Except Fault (graph × List (Nat × Nat))
  | 0, _, g, r => .ok (g, r)
  | fuel + 1, j, g, r =>
    if j < i then
      match addEdge g lp j with
      | .error e => .error e
      | .ok g1 =>
        match idx re (j + 1) with
        | .error e => .error e
        | .ok b =>
          classLoop re lp i fuel ((if b = DASH then j + 2 else j) + 1) g1 (mapSet r j i)
    else .ok (g, r)

/-- The first `switch` of the loop body of `buildNFA`: the value of `lp` and the
state after it. -/
def switchOp (ord : List Nat → List Nat) (re : List Nat) (i c : Nat) (st : BuildState) :
    Except Fault (Nat × BuildState) :=
  if c = LPAREN ∨ c = BAR ∨ c = LBRACKET then
    .ok (i, { st with ops := push st.ops i })
  else if c = RPAREN then
    match popOrs re st.ops [] with
    | .error e => .error e
    | .ok (ops1, ors) =>
      match pop ops1 with
      | .error e => .error e
      | .ok (lp, ops2) =>
        match orEdges lp i (ord ors) st.g with
        | .error e => .error e
        | .ok g1 => .ok (lp, { st with g := g1, ops := ops2 })
  else if c = RBRACKET then
    match pop st.ops with
    | .error e => .error e
    | .ok (lp, ops1) =>
      match classLoop re lp i (i - (lp + 1)) (lp + 1) st.g st.rightIdx with
      | .error e => .error e
      | .ok (g1, r1) => .ok (lp, { g := g1, ops := ops1, rightIdx := r1 })
  else .ok (i, st)

/-- The second `switch` of the loop body, `if i < M-1 { switch re[i+1] ... }`. -/
def switchRep (re : List Nat) (i lp : Nat) (g : graph) : Except Fault graph :=
  if i < re.length - 1 then
    match idx re (i + 1) with
    | .error e => .error e
    | .ok d =>
      if d = STAR then
        match addEdge g lp (i + 1) with
        | .error e => .error e
        | .ok g1 => addEdge g1 (i + 1) lp
      else if d = PLUS then addEdge g (i + 1) lp
      else if d = QUESTION then addEdge g lp (i + 1)
      else .ok g
  else .ok g

/-- One iteration of `for i := 0; i < M; i++ { ... }` in `buildNFA`. -/
def buildStep (ord : List Nat → List Nat) (re : List Nat) (i : Nat) (st : BuildState) :
    Except Fault BuildState :=
  match idx re i with
  | .error e => .error e
  | .ok c =>
    match switchOp ord re i c st with
    | .error e => .error e
    | .ok (lp, st1) =>
      match switchRep re i lp st1.g with
      | .error e => .error e
      | .ok g2 =>
        if metaChar c then
          match addEdge g2 i (i + 1) with
          | .error e => .error e
          | .ok g3 => .ok { st1 with g := g3 }
        else .ok { st1 with g := g2 }

/-- The loop `for i := 0; i < M; i++` from the current `i`, with `n = M - i`
iterations left. -/
def buildLoop (ord : List Nat → List Nat) (re : List Nat) :
    Nat → Nat → BuildState → Except Fault BuildState
  | 0, _, st => .ok st
  | n + 1, i, st =>
    match buildStep ord re i st with
    | .error e => .error e
    | .ok st1 => buildLoop ord re n (i + 1) st1

/-- Function `buildNFA`: `make(graph)`, the empty stack and the empty map
`rightIdx`, then the loop over the pattern. -/
def buildNFA (ord : List Nat → List Nat) (regex : List Nat) : Except Fault NFA :=
  match buildLoop ord regex regex.length 0 { g := [], ops := [], rightIdx := [] } with
  | .error e => .error e
  | .ok st => .ok { g := st.g, re := regex, m := st.rightIdx }

/-- The keys of `g[s]`, enumerated by `range`; the nil map has none. -/
def neighbors (ord : List Nat → List Nat) (g : graph) (s : Nat) : List Nat :=
  match g.lookup s with
  | none => []
  | some inner => ord inner

/-- Closure `dfs` of `multipleSrcReach`, threading the map `marked` (its list of
keys).  The first argument bounds the depth of the recursion; a nested call is
made only on an unmarked target of an edge, so the depth never exceeds the number
of edges plus one. -/
def dfs (ord : List Nat → List Nat) (g : graph) : Nat → Nat → List Nat → List Nat
  | 0, _, marked => marked
  | fuel + 1, s, marked =>
    (neighbors ord g s).foldl
      (fun mk k => if k ∈ mk then mk else dfs ord g fuel k mk) (setInsert marked s)

/-- The number of edges of the graph plus one. -/
def dfsFuel (g : graph) : Nat := (g.map (fun e => e.2.length)).sum + 1

/-- Function `multipleSrcReach`: the keys of the map `marked` it returns. -/
def multipleSrcReach (ord : List Nat → List Nat) (g : graph) (srcs : List Nat) : List Nat :=
  srcs.foldl (fun mk src => if src ∈ mk then mk else dfs ord g (dfsFuel g) src mk) []

/-- The body `if k < M { ... }` of the scan of `recognize` for the active
position `k` and the text byte `c`: the slice `match` after it. -/
def matchStep (nfa : NFA) (c k : Nat) (mt : List Nat) : Except Fault (List Nat) :=
  if k < nfa.re.length then
    match nfa.m.lookup k with
    | some r =>
      match idx nfa.re (k + 1) with
      | .error e => .error e
      | .ok d =>
        if d = DASH then
          match idx nfa.re k, idx nfa.re (k + 2) with
          | .ok left, .ok right => if left ≤ c ∧ c ≤ right then .ok (mt ++ [r]) else .ok mt
          | .error e, _ => .error e
          | _, .error e => .error e
        else
          match idx nfa.re k with
          | .error e => .error e
          | .ok a => if a = c ∨ a = DOT then .ok (mt ++ [r]) else .ok mt
    | none =>
      match idx nfa.re k with
      | .error e => .error e
      | .ok a => if a = c ∨ a = DOT then .ok (mt ++ [k + 1]) else .ok mt
  else .ok mt

/-- Loop `for k := range pc { ... }` of `recognize` over the keys still to visit.
The map `pc` is reassigned inside the loop, after every key, and the function
returns `false` as soon as the new `pc` is empty: the result is `none` for that
`return false` and `some pc` when the loop runs to its end. -/
def scanKeys (ord : List Nat → List Nat) (nfa : NFA) (c : Nat) :
    List Nat → List Nat → List Nat → Except Fault (Option (List Nat))
  | [], _, pc => .ok (some pc)
  | k :: ks, mt, _ =>
    match matchStep nfa c k mt with
    | .error e => .error e
    | .ok mt1 =>
      if (multipleSrcReach ord nfa.g mt1).length = 0 then .ok none
      else scanKeys ord nfa c ks mt1 (multipleSrcReach ord nfa.g mt1)

/-- Loop `for i := 0; i < len(txt); i++` of `recognize` over the rest of the
text, then the final test `for k := range pc { if k == M { return true } }`. -/
def recognizeLoop (ord : List Nat → List Nat) (nfa : NFA) :
    List Nat → List Nat → Except Fault Bool
  | [], pc => .ok ((ord pc).any (fun k => k == nfa.re.length))
  | c :: cs, pc =>
    match scanKeys ord nfa c (ord pc) [] pc with
    | .error e => .error e
    | .ok none => .ok false
    | .ok (some pc1) => recognizeLoop ord nfa cs pc1

/-- Method `NFA.recognize`. -/
def recognize (ord : List Nat → List Nat) (nfa : NFA) (txt : List Nat) : Except Fault Bool :=
  recognizeLoop ord nfa txt (multipleSrcReach ord nfa.g [0])

/-- Expression `buildNFA(regex).recognize(txt)`. -/
def run (ord : List Nat → List Nat) (regex txt : List Nat) : Except Fault Bool :=
  match buildNFA ord regex with
  | .error e => .error e
  | .ok nfa => recognize ord nfa txt

/-- The pattern `grep` compiles for `pat`: `"(.*" + pat + ".*)"`. -/
def grepRegexp (pat : List Nat) : List Nat := bytes "(.*" ++ pat ++ bytes ".*)"

/-- Function `grep` on the lines read from the standard input: the lines it
prints.  The automaton is built before the first line is read. -/
def grep (ord : List Nat → List Nat) (pat : List Nat) (lines : List (List Nat)) :
    Except Fault (List (List Nat)) :=
  match buildNFA ord (grepRegexp pat) with
  | .error e => .error e
  | .ok nfa =>
    lines.foldl
      (fun acc txt =>
        match acc, recognize ord nfa txt with
        | .error e, _ => .error e
        | .ok _, .error e => .error e
        | .ok out, .ok b => .ok (if b then out ++ [txt] else out))
      (.ok [])

/-- Positionwise comparison of a text with a pattern of literal bytes and `.`:
the two have the same length and every pattern byte is `.` or the text byte at
its position.  It is the reference the automaton of such a pattern is compared
with. -/
def plainMatch : List Nat → List Nat → Bool
  | [], [] => true
  | a :: p, c :: s => (a == c || a == DOT) && plainMatch p s
  | _, _ => false

/-- An edge `a -> b` of the epsilon graph: `b` is a key of the inner map `g[a]`. -/
def hasEdge (g : graph) (a b : Nat) : Bool :=
  match g.lookup a with
  | none => false
  | some inner => decide (b ∈ inner)

/-- Position `b` is reachable from `a` by a path of zero or more edges of `g`. -/
def Reach (g : graph) : Nat → Nat → Prop :=
  Relation.ReflTransGen (fun a b => hasEdge g a b = true)

/-- The targets of the edges of `g`, one entry per edge. -/
def targets (g : graph) : List Nat := g.flatMap (fun e => e.2)

/-- What a call `dfs(s)` started with the marks `marked` has to achieve with its
result `R`: the old marks are kept, `s` is marked, every new mark is reachable
from `s`, and every edge that leaves a new mark ends in a mark. -/
def DfsSpec (g : graph) (s : Nat) (marked R : List Nat) : Prop :=
  (∀ x ∈ marked, x ∈ R) ∧ s ∈ R ∧ (∀ x ∈ R, x ∉ marked → Reach g s x) ∧
    (∀ x ∈ R, x ∉ marked → ∀ y, hasEdge g x y = true → y ∈ R)

/-- A graph in which each of the positions `0 .. n-1` has an inner map, still
empty.  The function `buildNFA` never reaches such a state (it allocates no inner
map); the state is used to run the wiring statements of its loop past their
first `addEdge`. -/
def allocated (n : Nat) : graph := (List.range n).map (fun i => (i, []))

/-- The loop of `buildNFA` over the whole pattern, started on `allocated M`
instead of the empty outer map. -/
def wireAllocated (ord : List Nat → List Nat) (re : List Nat) : Except Fault BuildState :=
  buildLoop ord re re.length 0 { g := allocated re.length, ops := [], rightIdx := [] }

/-- One step of the set simulation in the words of the specification (section
4.3): every position `k` of the active set that carries a predicate (a position
below `M` that holds no metacharacter) is tested against the byte `c`, by the
test of `recognize`; the resume positions are collected over all of `active`. -/
def specMatched (nfa : NFA) (c : Nat) : List Nat → List Nat → Except Fault (List Nat)
  | [], mt => .ok mt
  | k :: ks, mt =>
    match nfa.re[k]? with
    | none => specMatched nfa c ks mt
    | some b =>
      if metaChar b then specMatched nfa c ks mt
      else
        match matchStep nfa c k mt with
        | .error e => .error e
        | .ok mt1 => specMatched nfa c ks mt1

/-- The active sets `A_0, A_1, ...` of the specification: `A_(j+1)` is the
closure of the positions matched from `A_j`, taken after all of `A_j` has been
scanned. -/
def specActive (ord : List Nat → List Nat) (nfa : NFA) :
    List Nat → List Nat → Except Fault (List Nat)
  | [], active => .ok active
  | c :: cs, active =>
    match specMatched nfa c active [] with
    | .error e => .error e
    | .ok mt => specActive ord nfa cs (multipleSrcReach ord nfa.g mt)

/-- The result of the specification: `M` is in the active set after the last byte. -/
def specRecognize (ord : List Nat → List Nat) (nfa : NFA) (txt : List Nat) :
    Except Fault Bool :=
  match specActive ord nfa txt (multipleSrcReach ord nfa.g [0]) with
  | .error e => .error e
  | .ok active => .ok (decide (nfa.re.length ∈ active))

/-- Struct `sparseSet` (package `sparse`): the slices `dense` and `sparse` and
the count `n`.  The entries are natural numbers. -/
structure sparseSet where
  dense : List Nat
  sparse : List Nat
  n : Nat
deriving DecidableEq, Repr

/-- Slice assignment `xs[i] = v`: panics when `i` is out of range. -/
def setIdx (xs : List Nat) (i v : Nat) : Except Fault (List Nat) :=
  if i < xs.length then .ok (xs.set i v) else .error .indexOutOfRange

/-- Method `sparseSet.add`: `s.dense[s.n] = i`, `s.sparse[i] = s.n`, `s.n++`. -/
def sparseSet.add (s : sparseSet) (i : Nat) : Except Fault sparseSet :=
  match setIdx s.dense s.n i with
  | .error e => .error e
  | .ok d =>
    match setIdx s.sparse i s.n with
    | .error e => .error e
    | .ok sp => .ok { dense := d, sparse := sp, n := s.n + 1 }

/-- Method `sparseSet.has`: `s.sparse[i] < s.n && s.dense[s.sparse[i]] == i`; the
second operand is evaluated only when the first holds. -/
def sparseSet.has (s : sparseSet) (i : Nat) : Except Fault Bool :=
  match idx s.sparse i with
  | .error e => .error e
  | .ok v =>
    if v < s.n then
      match idx s.dense v with
      | .error e => .error e
      | .ok d => .ok (d == i)
    else .ok false

/-- Loop `for i := 0; i < s.n; i++ { f(s.dense[i]) }` from the current `i`, with
`k = s.n - i` iterations left: the arguments `f` is called with. -/
def sparseSet.iterFrom (dense : List Nat) : Nat → Nat → Except Fault (List Nat)
  | 0, _ => .ok []
  | k + 1, i =>
    match idx dense i with
    | .error e => .error e
    | .ok v =>
      match sparseSet.iterFrom dense k (i + 1) with
      | .error e => .error e
      | .ok vs => .ok (v :: vs)

/-- Method `sparseSet.iter`: the sequence of elements `f` is called with. -/
def sparseSet.iter (s : sparseSet) : Except Fault (List Nat) :=
  sparseSet.iterFrom s.dense s.n 0

/-- Method `sparseSet.clear`: `s.n = 0`. -/
def sparseSet.clear (s : sparseSet) : sparseSet := { s with n := 0 }

/-- The calls `add(x1)`, ..., `add(xk)` one after the other. -/
def sparseSet.addAll : sparseSet → List Nat → Except Fault sparseSet
  | s, [] => .ok s
  | s, x :: xs =>
    match s.add x with
    | .error e => .error e
    | .ok s1 => sparseSet.addAll s1 xs

/-- The representation invariant of a sparse set of capacity `c` that holds the
elements `xs`, in the order they were added: `dense[j]` is the `j`-th element
and `sparse` maps it back to `j`.  Nothing is said of the other entries. -/
def sparseSet.Inv (c : Nat) (s : sparseSet) (xs : List Nat) : Prop :=
  s.dense.length = c ∧ s.sparse.length = c ∧ s.n = xs.length ∧
    ∀ j (h : j < xs.length), s.dense[j]? = some xs[j] ∧ s.sparse[xs[j]]? = some j

/-- The bound on the class map that keeps the reads of `recognize` in range:
every position `k` recorded in `m` has `k+1 < len(re)`, and `k+2 < len(re)` when
`re[k+1]` is `-`. -/
def ClassBound (re : List Nat) (m : List (Nat × Nat)) : Prop :=
  ∀ k r, (k, r) ∈ m → k + 1 < re.length ∧ (re[k + 1]? = some DASH → k + 2 < re.length)

/-! ## Lemmas on the building blocks -/

theorem idx_of_lt (xs : List Nat) (i : Nat) (h : i < xs.length) : idx xs i = .ok xs[i] := by
  simp [idx, List.getElem?_eq_getElem h]

theorem addEdge_nil (a b : Nat) : addEdge [] a b = .error .nilMapWrite := rfl

/-- A position that holds no metacharacter and is not followed by a repetition
operator leaves the state of the loop unchanged. -/
theorem buildStep_plain (ord : List Nat → List Nat) (re : List Nat) (i : Nat) (st : BuildState)
    (hi : i < re.length) (hc : metaChar re[i] = false)
    (hn : ∀ h : i + 1 < re.length, metaChar re[i + 1] = false) :
    buildStep ord re i st = .ok st := by
  have h1 := idx_of_lt re i hi
  simp only [metaChar, Bool.or_eq_false_iff, beq_eq_false_iff_ne] at hc
  obtain ⟨⟨⟨⟨⟨⟨⟨c1, c2⟩, c3⟩, c4⟩, c5⟩, c6⟩, c7⟩, c8⟩ := hc
  have hsw : switchOp ord re i re[i] st = .ok (i, st) := by
    simp [switchOp, c1, c2, c3, c4, c5]
  have hrep : switchRep re i i st.g = .ok st.g := by
    unfold switchRep
    split
    · rename_i hlt
      have hlt2 : i + 1 < re.length := by omega
      have h2 := hn hlt2
      simp only [metaChar, Bool.or_eq_false_iff, beq_eq_false_iff_ne] at h2
      obtain ⟨⟨⟨⟨⟨⟨⟨d1, d2⟩, d3⟩, d4⟩, d5⟩, d6⟩, d7⟩, d8⟩ := h2
      simp [idx_of_lt re (i + 1) hlt2, d6, d7, d8]
    · rfl
  have hm : metaChar re[i] = false := by simp [metaChar, c1, c2, c3, c4, c5, c6, c7, c8]
  simp [buildStep, h1, hsw, hrep, hm]

/-- On a pattern without metacharacters the loop of `buildNFA` never changes its
state. -/
theorem buildLoop_plain (ord : List Nat → List Nat) (re : List Nat) (st : BuildState)
    (hp : ∀ b ∈ re, metaChar b = false) :
    ∀ n i, i + n = re.length → buildLoop ord re n i st = .ok st := by
  intro n
  induction n with
  | zero => intro i _; rfl
  | succ n ih =>
    intro i hin
    have hi : i < re.length := by omega
    have hstep := buildStep_plain ord re i st hi (hp _ (List.getElem_mem _))
      (fun h => hp _ (List.getElem_mem _))
    simp [buildLoop, hstep, ih (i + 1) (by omega)]

/-- Function `buildNFA` returns on every pattern without metacharacters: the graph
and the class map of the automaton are empty. -/
theorem buildNFA_plain (ord : List Nat → List Nat) (re : List Nat)
    (hp : ∀ b ∈ re, metaChar b = false) :
    buildNFA ord re = .ok { g := [], re := re, m := [] } := by
  simp [buildNFA, buildLoop_plain ord re _ hp re.length 0 (by omega)]

/-- On the empty graph the second `switch` returns only when the next byte is
no repetition operator, and it leaves the graph empty. -/
theorem switchRep_nil_inv (re : List Nat) (i lp : Nat) (g : graph)
    (h : switchRep re i lp [] = .ok g) :
    g = [] ∧ ∀ h1 : i + 1 < re.length,
      re[i + 1] ≠ STAR ∧ re[i + 1] ≠ PLUS ∧ re[i + 1] ≠ QUESTION := by
  unfold switchRep at h
  by_cases hlt : i < re.length - 1
  · have hlt2 : i + 1 < re.length := by omega
    rw [if_pos hlt, idx_of_lt re (i + 1) hlt2] at h
    simp only [addEdge_nil] at h
    split_ifs at h with d1 d2 d3
    exact ⟨by simpa using h.symm, fun _ => ⟨d1, d2, d3⟩⟩
  · rw [if_neg hlt] at h
    refine ⟨by simpa using h.symm, fun h1 => absurd (show i < re.length - 1 by omega) hlt⟩

/-- On the empty graph and the empty stack the first `switch` returns only with
the graph still empty. -/
theorem switchOp_nil_inv (ord : List Nat → List Nat) (re : List Nat) (i c lp : Nat)
    (st st1 : BuildState) (hg : st.g = []) (ho : st.ops = [])
    (h : switchOp ord re i c st = .ok (lp, st1)) : st1.g = [] := by
  unfold switchOp at h
  rw [ho] at h
  split_ifs at h with c1 c2 c3
  · simp at h; rw [← h.2]; exact hg
  · simp [popOrs] at h
  · simp [pop] at h
  · simp at h; rw [← h.2]; exact hg

/-- Started on the empty graph and the empty stack, an iteration of the loop of
`buildNFA` returns only at a position that holds no metacharacter and is not
followed by a repetition operator; the state is then unchanged. -/
theorem buildStep_nil_inv (ord : List Nat → List Nat) (re : List Nat) (i : Nat)
    (st st2 : BuildState) (hi : i < re.length) (hg : st.g = []) (ho : st.ops = [])
    (h : buildStep ord re i st = .ok st2) :
    metaChar re[i] = false ∧ st2 = st := by
  unfold buildStep at h
  rw [idx_of_lt re i hi] at h
  simp only at h
  cases hsw : switchOp ord re i re[i] st with
  | error e => simp [hsw] at h
  | ok p =>
    obtain ⟨lp, st1⟩ := p
    have hg1 := switchOp_nil_inv ord re i _ lp st st1 hg ho hsw
    rw [hsw] at h
    simp only at h
    cases hrep : switchRep re i lp st1.g with
    | error e => simp [hrep] at h
    | ok g2 =>
      rw [hrep] at h
      simp only at h
      rw [hg1] at hrep
      have hg2 := (switchRep_nil_inv re i lp g2 hrep).1
      subst hg2
      by_cases hm : metaChar re[i] = true
      · simp [hm, addEdge_nil] at h
      · have hm2 : metaChar re[i] = false := by simpa using hm
        refine ⟨hm2, ?_⟩
        simp only [hm2] at h
        have hst1 : st1 = st := by
          simp only [metaChar, Bool.or_eq_false_iff, beq_eq_false_iff_ne] at hm2
          obtain ⟨⟨⟨⟨⟨⟨⟨c1, c2⟩, c3⟩, c4⟩, c5⟩, c6⟩, c7⟩, c8⟩ := hm2
          simp [switchOp, c1, c2, c3, c4, c5] at hsw
          exact hsw.2.symm
        subst hst1
        cases st1
        simp_all

/-- When the loop of `buildNFA` returns, started on the empty graph and the empty
stack, no position it visited holds a metacharacter. -/
theorem buildLoop_nil_inv (ord : List Nat → List Nat) (re : List Nat) (st st2 : BuildState)
    (hg : st.g = []) (ho : st.ops = []) :
    ∀ n i, i + n = re.length → buildLoop ord re n i st = .ok st2 →
      ∀ j (hj : j < re.length), i ≤ j → metaChar re[j] = false := by
  intro n
  induction n with
  | zero => intro i hin _ j hj hij; omega
  | succ n ih =>
    intro i hin h j hj hij
    have hi : i < re.length := by omega
    unfold buildLoop at h
    cases hstep : buildStep ord re i st with
    | error e => simp [hstep] at h
    | ok st1 =>
      rw [hstep] at h
      simp only at h
      obtain ⟨hm, hst⟩ := buildStep_nil_inv ord re i st st1 hi hg ho hstep
      subst hst
      by_cases hji : j = i
      · subst hji; exact hm
      · exact ih (i + 1) (by omega) h j hj (by omega)

/-- Function `buildNFA` returns an automaton exactly on the patterns that hold no
metacharacter. -/
theorem buildNFA_ok_iff (ord : List Nat → List Nat) (re : List Nat) :
    (∃ nfa, buildNFA ord re = .ok nfa) ↔ ∀ b ∈ re, metaChar b = false := by
  constructor
  · rintro ⟨nfa, h⟩ b hb
    unfold buildNFA at h
    cases hl : buildLoop ord re re.length 0 { g := [], ops := [], rightIdx := [] } with
    | error e => simp [hl] at h
    | ok st =>
      obtain ⟨j, hj, rfl⟩ := List.getElem_of_mem hb
      exact buildLoop_nil_inv ord re _ st rfl rfl re.length 0 (by omega) hl j hj (by omega)
  · intro hp
    exact ⟨_, buildNFA_plain ord re hp⟩

/-! ## The automaton of a pattern without metacharacters -/

theorem multipleSrcReach_nil_nil (ord : List Nat → List Nat) :
    multipleSrcReach ord [] [] = [] := rfl

theorem multipleSrcReach_nil_single (ord : List Nat → List Nat) (x : Nat) :
    multipleSrcReach ord [] [x] = [x] := by
  simp [multipleSrcReach, dfsFuel, dfs, neighbors, setInsert]

theorem ord_single (ord : List Nat → List Nat) (hord : ∀ l, (ord l).Perm l) (k : Nat) :
    ord [k] = [k] := List.perm_singleton.mp (hord [k])

theorem plainMatch_nil_right (p : List Nat) : plainMatch p [] = decide (p = []) := by
  cases p <;> simp [plainMatch]

/-- With the empty graph and the empty class map the active set is the single
position `k`, and the simulation compares the rest of the text with the rest of
the pattern byte by byte. -/
theorem recognizeLoop_plain (ord : List Nat → List Nat) (hord : ∀ l, (ord l).Perm l)
    (p : List Nat) :
    ∀ (txt : List Nat) (k : Nat), k ≤ p.length →
      recognizeLoop ord { g := [], re := p, m := [] } txt [k] = .ok (plainMatch (p.drop k) txt) := by
  intro txt
  induction txt with
  | nil =>
    intro k hk
    simp only [recognizeLoop, ord_single ord hord, plainMatch_nil_right]
    congr 1
    simp only [List.any_cons, List.any_nil, Bool.or_false, List.drop_eq_nil_iff]
    by_cases h : k = p.length
    · simp [h]
    · have h1 : ¬ p.length ≤ k := by omega
      simp [h, h1]
  | cons c cs ih =>
    intro k hk
    simp only [recognizeLoop, ord_single ord hord]
    by_cases hlt : k < p.length
    · have hd : p.drop k = p[k] :: p.drop (k + 1) := List.drop_eq_getElem_cons hlt
      rw [hd]
      by_cases hm : p[k] = c ∨ p[k] = DOT
      · have hms : matchStep { g := [], re := p, m := [] } c k [] = .ok [k + 1] := by
          simp [matchStep, hlt, idx_of_lt p k hlt, hm]
        have hb : (p[k] == c || p[k] == DOT) = true := by simpa using hm
        simp only [scanKeys, hms, multipleSrcReach_nil_single, List.length_singleton,
          one_ne_zero, if_false, plainMatch, hb, Bool.true_and]
        exact ih (k + 1) (by omega)
      · have hms : matchStep { g := [], re := p, m := [] } c k [] = .ok [] := by
          simp [matchStep, hlt, idx_of_lt p k hlt, hm]
        have hb : (p[k] == c || p[k] == DOT) = false := by simpa using hm
        simp [scanKeys, hms, multipleSrcReach_nil_nil, plainMatch, hb]
    · have hk2 : p.length ≤ k := by omega
      have hms : matchStep { g := [], re := p, m := [] } c k [] = .ok [] := by
        simp [matchStep, hlt]
      simp [scanKeys, hms, multipleSrcReach_nil_nil, List.drop_eq_nil_of_le hk2, plainMatch]

/-- On a pattern without metacharacters `buildNFA(p).recognize(s)` returns the
positionwise comparison of `s` with `p`. -/
theorem run_plain (ord : List Nat → List Nat) (hord : ∀ l, (ord l).Perm l) (p s : List Nat)
    (hp : ∀ b ∈ p, metaChar b = false) : run ord p s = .ok (plainMatch p s) := by
  simp only [run, buildNFA_plain ord p hp, recognize, multipleSrcReach_nil_single]
  simpa using recognizeLoop_plain ord hord p s 0 (by omega)

/-- Expression `buildNFA(p).recognize(s)` returns a value only when `p` holds no
metacharacter. -/
theorem run_ok_plain (ord : List Nat → List Nat) (p s : List Nat) (b : Bool)
    (h : run ord p s = .ok b) : ∀ c ∈ p, metaChar c = false := by
  apply (buildNFA_ok_iff ord p).mp
  unfold run at h
  cases hb : buildNFA ord p with
  | error e => simp [hb] at h
  | ok nfa => exact ⟨nfa, rfl⟩

theorem plainMatch_iff (p s : List Nat) :
    plainMatch p s = true ↔
      s.length = p.length ∧
        ∀ i (h1 : i < p.length) (h2 : i < s.length), p[i] = DOT ∨ p[i] = s[i] := by
  induction p generalizing s with
  | nil => cases s <;> simp [plainMatch]
  | cons a p ih =>
    cases s with
    | nil => simp [plainMatch]
    | cons c s =>
      simp only [plainMatch, Bool.and_eq_true, Bool.or_eq_true, beq_iff_eq, ih,
        List.length_cons, Nat.add_right_cancel_iff]
      constructor
      · rintro ⟨ha, hl, hall⟩
        refine ⟨hl, fun i h1 h2 => ?_⟩
        cases i with
        | zero => simpa using ha.symm
        | succ i => simpa using hall i (by simpa using h1) (by simpa using h2)
      · rintro ⟨hl, hall⟩
        refine ⟨?_, hl, fun i h1 h2 => ?_⟩
        · simpa using (hall 0 (by simp) (by simp)).symm
        · simpa using hall (i + 1) (by simpa using h1) (by simpa using h2)

theorem plainMatch_append (A B s : List Nat) :
    plainMatch (A ++ B) s = true ↔
      ∃ a b, s = a ++ b ∧ plainMatch A a = true ∧ plainMatch B b = true := by
  induction A generalizing s with
  | nil =>
    constructor
    · intro h; exact ⟨[], s, rfl, rfl, h⟩
    · rintro ⟨a, b, rfl, ha, hb⟩
      cases a with
      | nil => simpa using hb
      | cons x a => simp [plainMatch] at ha
  | cons x A ih =>
    cases s with
    | nil =>
      constructor
      · intro h; simp [plainMatch] at h
      · rintro ⟨a, b, hs, ha, _⟩
        cases a with
        | nil => simp [plainMatch] at ha
        | cons y a => simp at hs
    | cons c s =>
      have e : plainMatch (x :: (A ++ B)) (c :: s)
          = ((x == c || x == DOT) && plainMatch (A ++ B) s) := rfl
      rw [List.cons_append, e, Bool.and_eq_true, ih]
      constructor
      · rintro ⟨hx, a, b, rfl, ha, hb⟩
        refine ⟨c :: a, b, rfl, ?_, hb⟩
        have e2 : plainMatch (x :: A) (c :: a) = ((x == c || x == DOT) && plainMatch A a) := rfl
        rw [e2, hx, ha]; rfl
      · rintro ⟨a, b, hs, ha, hb⟩
        cases a with
        | nil => simp [plainMatch] at ha
        | cons y a =>
          simp only [List.cons_append, List.cons.injEq] at hs
          obtain ⟨rfl, rfl⟩ := hs
          have e2 : plainMatch (x :: A) (c :: a) = ((x == c || x == DOT) && plainMatch A a) := rfl
          rw [e2, Bool.and_eq_true] at ha
          exact ⟨ha.1, a, b, rfl, ha.2, hb⟩

/-- Function `buildNFA` panics on every pattern that holds a metacharacter. -/
theorem buildNFA_fault_of_meta (ord : List Nat → List Nat) (re : List Nat) (c : Nat)
    (hc : c ∈ re) (hm : metaChar c = true) : ∃ e, buildNFA ord re = .error e := by
  cases hb : buildNFA ord re with
  | error e => exact ⟨e, rfl⟩
  | ok nfa =>
    have h := (buildNFA_ok_iff ord re).mp ⟨nfa, hb⟩ c hc
    rw [hm] at h
    exact absurd h (by simp)

/-- Function `grep` panics for every `pat`, before it reads a line: the pattern it
compiles starts with `(`. -/
theorem grep_fault (ord : List Nat → List Nat) (pat : List Nat) (lines : List (List Nat)) :
    ∃ e, grep ord pat lines = .error e := by
  obtain ⟨e, he⟩ := buildNFA_fault_of_meta ord (grepRegexp pat) LPAREN
    (by simp [grepRegexp, bytes]) (by decide)
  exact ⟨e, by simp [grep, he]⟩

/-! ## The claims -/

/-- C1: concatenation is the cross product.  For all patterns `A` and `B`,
well-formed or not, and every text `s`, `buildNFA(A ++ B).recognize(s)` returns
`true` iff `s` splits as `a ++ b` where `buildNFA(A).recognize(a)` returns `true`
and `buildNFA(B).recognize(b)` returns `true`, whatever the order in which the
maps are enumerated.  (A call returns `true` only on a pattern without
metacharacters; on any other pattern `buildNFA` panics, on both sides.) -/
theorem concat_cross_product (ord : List Nat → List Nat) (hord : ∀ l, (ord l).Perm l)
    (A B s : List Nat) :
    run ord (A ++ B) s = .ok true ↔
      ∃ a b, s = a ++ b ∧ run ord A a = .ok true ∧ run ord B b = .ok true := by
  constructor
  · intro h
    have hp := run_ok_plain ord (A ++ B) s true h
    have hA : ∀ c ∈ A, metaChar c = false := fun c hc => hp c (List.mem_append_left _ hc)
    have hB : ∀ c ∈ B, metaChar c = false := fun c hc => hp c (List.mem_append_right _ hc)
    rw [run_plain ord hord _ _ hp] at h
    have h2 : plainMatch (A ++ B) s = true := by simpa using h
    obtain ⟨a, b, hs, ha, hb⟩ := (plainMatch_append A B s).mp h2
    exact ⟨a, b, hs, by rw [run_plain ord hord A a hA, ha], by rw [run_plain ord hord B b hB, hb]⟩
  · rintro ⟨a, b, rfl, ha, hb⟩
    have hA := run_ok_plain ord A a true ha
    have hB := run_ok_plain ord B b true hb
    have hp : ∀ c ∈ A ++ B, metaChar c = false := by
      intro c hc
      rcases List.mem_append.mp hc with h | h
      · exact hA c h
      · exact hB c h
    rw [run_plain ord hord A a hA] at ha
    rw [run_plain ord hord B b hB] at hb
    rw [run_plain ord hord _ _ hp]
    have h2 : plainMatch (A ++ B) (a ++ b) = true :=
      (plainMatch_append A B (a ++ b)).mpr ⟨a, b, rfl, by simpa using ha, by simpa using hb⟩
    rw [h2]

/-- C1 at `A = "AB"`, `B = ".D"`, `s = "ABCD"`, split as `"AB" ++ "CD"`. -/
theorem concat_cross_product_witness :
    run id (bytes "AB" ++ bytes ".D") (bytes "ABCD") = .ok true :=
  (concat_cross_product id (fun l => List.Perm.refl l) (bytes "AB") (bytes ".D")
    (bytes "ABCD")).mpr ⟨bytes "AB", bytes "CD", by decide, by decide, by decide⟩

/-- C2: at `A = "A"`, `B = "B"`, `s = "A"` the call
`buildNFA("(A)|(B)").recognize("A")` panics in `buildNFA` (assignment to an entry
of the nil inner map, whatever the enumeration order) while
`buildNFA("A").recognize("A")` returns `true`: the alternation does not accept the
union. -/
theorem alternation_union_faults :
    (∀ ord, run ord (bytes "(" ++ bytes "A" ++ bytes ")|(" ++ bytes "B" ++ bytes ")") (bytes "A")
        = .error .nilMapWrite) ∧
      run id (bytes "A") (bytes "A") = .ok true :=
  ⟨fun _ => rfl, by decide⟩

/-- C3: at `A = "A"`, `s = "A"` neither `buildNFA("(A*)*").recognize("A")` nor
`buildNFA("A*").recognize("A")` returns a boolean: `buildNFA` panics on both
patterns (assignment to an entry of the nil inner map). -/
theorem closure_idempotence_faults :
    (∀ ord, run ord (bytes "(" ++ bytes "A" ++ bytes "*)*") (bytes "A") = .error .nilMapWrite) ∧
      (∀ ord, run ord (bytes "A" ++ bytes "*") (bytes "A") = .error .nilMapWrite) :=
  ⟨fun _ => rfl, fun _ => rfl⟩

/-- C4: `buildNFA("(A|B)C")` panics (assignment to an entry of the nil inner
map), so neither `"AC"` nor `"BC"` is accepted. -/
theorem group_alternation_faults :
    (∀ ord, buildNFA ord (bytes "(A|B)C") = .error .nilMapWrite) ∧
      (∀ ord, run ord (bytes "(A|B)C") (bytes "AC") = .error .nilMapWrite) ∧
      (∀ ord, run ord (bytes "(A|B)C") (bytes "BC") = .error .nilMapWrite) :=
  ⟨fun _ => rfl, fun _ => rfl, fun _ => rfl⟩

/-- C5: `buildNFA("(0|1(01*0)*1)*")` panics (assignment to an entry of the nil
inner map), so the multiples of three `"0"`, `"110"` and `"1001"` are not
accepted. -/
theorem multiple_of_three_faults :
    (∀ ord, run ord (bytes "(0|1(01*0)*1)*") (bytes "0") = .error .nilMapWrite) ∧
      (∀ ord, run ord (bytes "(0|1(01*0)*1)*") (bytes "110") = .error .nilMapWrite) ∧
      (∀ ord, run ord (bytes "(0|1(01*0)*1)*") (bytes "1001") = .error .nilMapWrite) :=
  ⟨fun _ => rfl, fun _ => rfl, fun _ => rfl⟩

/-- C6: for `pat = "cat"` the automaton `grep` builds, `buildNFA("(.*cat.*)")`,
does not exist: `buildNFA` panics (assignment to an entry of the nil inner map),
so `"concatenate"` is not recognized and `grep` prints no line. -/
theorem grep_substring_faults :
    (∀ ord, run ord (grepRegexp (bytes "cat")) (bytes "concatenate") = .error .nilMapWrite) ∧
      (∀ ord, grep ord (bytes "cat") [bytes "concatenate", bytes "dog"] = .error .nilMapWrite) :=
  ⟨fun _ => rfl, fun _ => rfl⟩

/-- C7: the empty pattern accepts only the empty string.  For every text `s`,
`buildNFA("").recognize(s)` returns a boolean, and it is `true` iff `s` is empty,
whatever the order in which the maps are enumerated. -/
theorem empty_pattern_accepts_only_empty (ord : List Nat → List Nat)
    (hord : ∀ l, (ord l).Perm l) (s : List Nat) :
    (∃ b, run ord [] s = .ok b) ∧ (run ord [] s = .ok true ↔ s = []) := by
  have h := run_plain ord hord [] s (by simp)
  refine ⟨⟨_, h⟩, ?_⟩
  rw [h]
  cases s <;> simp [plainMatch]

/-- C7 at the texts `""` (accepted) and `"A"` (rejected). -/
theorem empty_pattern_accepts_only_empty_witness :
    run id [] [] = .ok true ∧ run id [] (bytes "A") ≠ .ok true :=
  ⟨(empty_pattern_accepts_only_empty id (fun l => List.Perm.refl l) []).2.mpr rfl,
    fun h => absurd ((empty_pattern_accepts_only_empty id (fun l => List.Perm.refl l)
      (bytes "A")).2.mp h) (by decide)⟩

/-- C8: `.` matches any single byte.  For every pattern `p` that holds no
metacharacter and every text `s`, `buildNFA(p).recognize(s)` returns a boolean,
and it is `true` iff `len(s) = len(p)` and for every `i` either `p[i] = '.'` or
`p[i] = s[i]`; in particular `buildNFA(".").recognize(s)` returns `true` iff `s`
has exactly one byte.  This holds whatever the order in which the maps are
enumerated. -/
theorem dot_matches_any_byte (ord : List Nat → List Nat) (hord : ∀ l, (ord l).Perm l)
    (p s : List Nat) (hp : ∀ b ∈ p, metaChar b = false) :
    (∃ b, run ord p s = .ok b) ∧
      (run ord p s = .ok true ↔
        s.length = p.length ∧
          ∀ i (h1 : i < p.length) (h2 : i < s.length), p[i] = DOT ∨ p[i] = s[i]) ∧
      (run ord [DOT] s = .ok true ↔ s.length = 1) := by
  have h := run_plain ord hord p s hp
  have hd := run_plain ord hord [DOT] s (by simp [metaChar])
  refine ⟨⟨_, h⟩, ?_, ?_⟩
  · rw [h, ← plainMatch_iff]
    simp
  · rw [hd]
    have h3 := plainMatch_iff [DOT] s
    simp only [Except.ok.injEq, h3]
    constructor
    · intro h4; simpa using h4.1
    · intro h4
      refine ⟨by simpa using h4, fun i h1 h2 => ?_⟩
      have hi : i = 0 := by simpa using h1
      subst hi
      simp

/-- C8 at `p = "A.C"`, `s = "ABC"`: the text is accepted. -/
theorem dot_matches_any_byte_witness :
    (∀ b ∈ bytes "A.C", metaChar b = false) ∧ run id (bytes "A.C") (bytes "ABC") = .ok true :=
  ⟨by decide,
    (dot_matches_any_byte id (fun l => List.Perm.refl l) (bytes "A.C") (bytes "ABC")
      (by decide)).2.1.mpr ⟨by decide, by decide⟩⟩

/-- C9: `buildNFA("[A-Z]")` panics (assignment to an entry of the nil inner map),
so none of the one-byte texts `"A"`, `"Z"`, `"H"` in the range is accepted. -/
theorem class_range_faults :
    (∀ ord, run ord (bytes "[A-Z]") (bytes "A") = .error .nilMapWrite) ∧
      (∀ ord, run ord (bytes "[A-Z]") (bytes "Z") = .error .nilMapWrite) ∧
      (∀ ord, run ord (bytes "[A-Z]") (bytes "H") = .error .nilMapWrite) :=
  ⟨fun _ => rfl, fun _ => rfl, fun _ => rfl⟩

/-- C10: on the well-formed pattern `"A*"` the function `buildNFA` does not run to
completion: its first `addEdge` writes into the nil inner map `g[0]` and panics.
The same happens on `"(A)"` and `"[AB]"`. -/
theorem buildNFA_star_faults :
    (∀ ord, buildNFA ord (bytes "A*") = .error .nilMapWrite) ∧
      (∀ ord, buildNFA ord (bytes "(A)") = .error .nilMapWrite) ∧
      (∀ ord, buildNFA ord (bytes "[AB]") = .error .nilMapWrite) :=
  ⟨fun _ => rfl, fun _ => rfl, fun _ => rfl⟩

/-! ## The sparse set -/

theorem idx_of_getElem? (xs : List Nat) (i b : Nat) (h : xs[i]? = some b) : idx xs i = .ok b := by
  simp [idx, h]

theorem nodup_length_le (c : Nat) (xs : List Nat) (hnd : xs.Nodup) (hx : ∀ x ∈ xs, x < c) :
    xs.length ≤ c := by
  have hsub : xs ⊆ List.range c := fun x h => List.mem_range.mpr (hx x h)
  have := (List.subperm_of_subset hnd hsub).length_le
  simpa using this

/-- Adding a new element keeps the representation invariant. -/
theorem sparseSet.add_inv (c : Nat) (s : sparseSet) (xs : List Nat) (x : Nat)
    (hinv : sparseSet.Inv c s xs) (hnew : x ∉ xs) (hx : x < c) (hroom : xs.length < c) :
    ∃ s1, s.add x = .ok s1 ∧ sparseSet.Inv c s1 (xs ++ [x]) := by
  obtain ⟨hd, hs, hn, hall⟩ := hinv
  have h1 : s.n < s.dense.length := by omega
  have h2 : x < s.sparse.length := by omega
  refine ⟨{ dense := s.dense.set s.n x, sparse := s.sparse.set x s.n, n := s.n + 1 }, ?_, ?_⟩
  · simp [sparseSet.add, setIdx, h1, h2]
  · refine ⟨by simpa using hd, by simpa using hs, by simp [hn], ?_⟩
    intro j hj
    by_cases hlt : j < xs.length
    · obtain ⟨e1, e2⟩ := hall j hlt
      have hne : xs[j] ≠ x := fun h => hnew (h ▸ List.getElem_mem hlt)
      have hjn : s.n ≠ j := by omega
      rw [List.getElem_append_left hlt]
      constructor
      · simp only [List.getElem?_set_ne hjn]; exact e1
      · simp only [List.getElem?_set_ne (Ne.symm hne)]; exact e2
    · have hj2 : j = xs.length := by simp at hj; omega
      subst hj2
      have hx2 : (xs ++ [x])[xs.length] = x := by simp
      rw [hx2, ← hn]
      constructor
      · simp [List.getElem?_set_self, h1]
      · simp [List.getElem?_set_self, h2]

/-- Under the representation invariant `has` is exact. -/
theorem sparseSet.has_of_inv (c : Nat) (s : sparseSet) (xs : List Nat) (i : Nat)
    (hinv : sparseSet.Inv c s xs) (hi : i < c) : s.has i = .ok (decide (i ∈ xs)) := by
  obtain ⟨hd, hs, hn, hall⟩ := hinv
  have hi2 : i < s.sparse.length := by omega
  have back : ∀ j (h : j < xs.length), xs[j] = i → s.sparse[i] = j := by
    intro j h e
    have := (hall j h).2
    rw [e, List.getElem?_eq_getElem hi2] at this
    simpa using this
  simp only [sparseSet.has, idx_of_lt _ _ hi2]
  by_cases hv : s.sparse[i] < s.n
  · have hv2 : s.sparse[i] < xs.length := by omega
    have e1 := (hall _ hv2).1
    simp only [hv, if_true, idx_of_getElem? _ _ _ e1]
    congr 1
    by_cases e : xs[s.sparse[i]] = i
    · have hm : i ∈ xs := e ▸ List.getElem_mem hv2
      simp [e, hm]
    · have hm : i ∉ xs := by
        intro hm
        obtain ⟨j, hj, ej⟩ := List.getElem_of_mem hm
        have := back j hj ej
        subst this
        exact e ej
      simp [e, hm]
  · have hm : i ∉ xs := by
      intro hm
      obtain ⟨j, hj, ej⟩ := List.getElem_of_mem hm
      have := back j hj ej
      omega
    simp [hv, hm]

/-- Adding pairwise distinct elements below the capacity never panics and
establishes the invariant for all of them. -/
theorem sparseSet.addAll_inv (c : Nat) :
    ∀ (rest done : List Nat) (s : sparseSet), sparseSet.Inv c s done →
      (done ++ rest).Nodup → (∀ x ∈ done ++ rest, x < c) →
      ∃ s1, sparseSet.addAll s rest = .ok s1 ∧ sparseSet.Inv c s1 (done ++ rest) := by
  intro rest
  induction rest with
  | nil => intro done s hinv _ _; exact ⟨s, rfl, by simpa using hinv⟩
  | cons x rest ih =>
    intro done s hinv hnd hlt
    have hnd2 : (done ++ [x] ++ rest).Nodup := by simpa using hnd
    have hlt2 : ∀ y ∈ done ++ [x] ++ rest, y < c := by simpa using hlt
    have hnd3 : (done ++ [x]).Nodup := (List.nodup_append.mp hnd2).1
    have hnew : x ∉ done := by
      intro h
      have := List.nodup_append.mp hnd3
      exact this.2.2 h (by simp)
    have hlen := nodup_length_le c (done ++ [x]) hnd3
      (fun y hy => hlt2 y (List.mem_append_left _ hy))
    obtain ⟨s1, hadd, hinv1⟩ := sparseSet.add_inv c s done x hinv hnew
      (hlt x (by simp)) (by simp at hlen; omega)
    obtain ⟨s2, hall, hinv2⟩ := ih (done ++ [x]) s1 hinv1 hnd2 hlt2
    exact ⟨s2, by simp [sparseSet.addAll, hadd, hall], by simpa using hinv2⟩

theorem sparseSet.iterFrom_eq (dense : List Nat) :
    ∀ k i, i + k ≤ dense.length → sparseSet.iterFrom dense k i = .ok ((dense.drop i).take k) := by
  intro k
  induction k with
  | zero => intro i _; simp [sparseSet.iterFrom]
  | succ k ih =>
    intro i h
    have hi : i < dense.length := by omega
    simp only [sparseSet.iterFrom, idx_of_lt _ _ hi, ih (i + 1) (by omega)]
    rw [List.drop_eq_getElem_cons hi, List.take_succ_cons]

theorem take_set_succ : ∀ (l : List Nat) (n v : Nat), n < l.length →
    (l.set n v).take (n + 1) = l.take n ++ [v]
  | [], n, v, h => by simp at h
  | a :: l, 0, v, _ => by simp
  | a :: l, n + 1, v, h => by simp [take_set_succ l n v (by simpa using h)]

theorem sparseSet.iter_eq (s : sparseSet) (h : s.n ≤ s.dense.length) :
    s.iter = .ok (s.dense.take s.n) := by
  simpa [sparseSet.iter] using sparseSet.iterFrom_eq s.dense s.n 0 (by omega)

/-! ## Reachability -/

theorem mem_setInsert (l : List Nat) (k x : Nat) : x ∈ setInsert l k ↔ x ∈ l ∨ x = k := by
  unfold setInsert
  split
  · constructor
    · intro h; exact Or.inl h
    · rintro (h | h)
      · exact h
      · subst h; assumption
  · simp

theorem neighbors_mem (ord : List Nat → List Nat) (hord : ∀ l, (ord l).Perm l) (g : graph)
    (s k : Nat) : k ∈ neighbors ord g s ↔ hasEdge g s k = true := by
  unfold neighbors hasEdge
  cases g.lookup s with
  | none => simp
  | some inner => simp [(hord inner).mem_iff]

theorem lookup_mem (g : graph) (a : Nat) (inner : List Nat) (h : g.lookup a = some inner) :
    (a, inner) ∈ g := by
  induction g with
  | nil => simp at h
  | cons e g ih =>
    obtain ⟨a0, i0⟩ := e
    by_cases hk : a = a0
    · subst hk
      simp [List.lookup] at h
      simp [h]
    · have hk2 : (a == a0) = false := by simpa using hk
      simp only [List.lookup, hk2] at h
      exact List.mem_cons_of_mem _ (ih h)

theorem hasEdge_target (g : graph) (a b : Nat) (h : hasEdge g a b = true) : b ∈ targets g := by
  unfold hasEdge at h
  cases hl : g.lookup a with
  | none => simp [hl] at h
  | some inner =>
    simp only [hl, decide_eq_true_eq] at h
    exact List.mem_flatMap.mpr ⟨(a, inner), lookup_mem g a inner hl, h⟩

theorem dfsFuel_eq (g : graph) : dfsFuel g = (targets g).length + 1 := by
  simp [dfsFuel, targets, List.length_flatMap, Function.comp_def]

/-- The unmarked targets left for a nested call are fewer than those left for
the call that makes it. -/
theorem unmarked_card_lt (g : graph) (s k : Nat) (marked mk : List Nat)
    (hsub : ∀ x ∈ marked, x ∈ mk) (hs : s ∈ mk) (hk : k ∉ mk) (hedge : hasEdge g s k = true) :
    ((targets g).toFinset \ insert k mk.toFinset).card
      < ((targets g).toFinset \ insert s marked.toFinset).card := by
  apply Finset.card_lt_card
  rw [Finset.ssubset_iff_of_subset]
  · refine ⟨k, ?_, ?_⟩
    · simp only [Finset.mem_sdiff, List.mem_toFinset, Finset.mem_insert, not_or]
      refine ⟨hasEdge_target g s k hedge, ?_, fun h => hk (hsub k h)⟩
      intro h; subst h; exact hk hs
    · simp
  · intro x hx
    simp only [Finset.mem_sdiff, List.mem_toFinset, Finset.mem_insert, not_or] at hx ⊢
    refine ⟨hx.1, ?_, fun h => hx.2.2 (hsub x h)⟩
    intro h; subst h; exact hx.2.2 hs

/-- The loop `for k := range g[s]` of `dfs(s)` over the neighbours still to visit,
given that the nested calls meet `DfsSpec`. -/
theorem dfs_fold (ord : List Nat → List Nat) (g : graph) (f s : Nat) (marked : List Nat)
    (hreq : ((targets g).toFinset \ insert s marked.toFinset).card < f + 1)
    (ih : ∀ k mk, ((targets g).toFinset \ insert k mk.toFinset).card < f →
      DfsSpec g k mk (dfs ord g f k mk)) :
    ∀ (ks mk : List Nat), (∀ k ∈ ks, hasEdge g s k = true) →
      (∀ x ∈ marked, x ∈ mk) → s ∈ mk → (∀ x ∈ mk, x ∉ marked → Reach g s x) →
      (∀ x ∈ mk, x ∉ marked → x ≠ s → ∀ y, hasEdge g x y = true → y ∈ mk) →
      (∀ x ∈ mk, x ∈ ks.foldl (fun mk k => if k ∈ mk then mk else dfs ord g f k mk) mk) ∧
      (∀ k ∈ ks, k ∈ ks.foldl (fun mk k => if k ∈ mk then mk else dfs ord g f k mk) mk) ∧
      (∀ x ∈ ks.foldl (fun mk k => if k ∈ mk then mk else dfs ord g f k mk) mk,
        x ∉ marked → Reach g s x) ∧
      (∀ x ∈ ks.foldl (fun mk k => if k ∈ mk then mk else dfs ord g f k mk) mk,
        x ∉ marked → x ≠ s → ∀ y, hasEdge g x y = true → y ∈
          ks.foldl (fun mk k => if k ∈ mk then mk else dfs ord g f k mk) mk) := by
  intro ks
  induction ks with
  | nil =>
    intro mk _ _ _ hreach hclosed
    exact ⟨fun x h => h, fun k h => absurd h (List.not_mem_nil k), hreach, hclosed⟩
  | cons k ks ihks =>
    intro mk hks hsub hs hreach hclosed
    have hedge : hasEdge g s k = true := hks k (List.mem_cons_self _ _)
    have hks2 : ∀ k2 ∈ ks, hasEdge g s k2 = true := fun k2 h => hks k2 (List.mem_cons_of_mem _ h)
    simp only [List.foldl_cons]
    by_cases hk : k ∈ mk
    · simp only [hk, if_true]
      obtain ⟨a1, a2, a3, a4⟩ := ihks mk hks2 hsub hs hreach hclosed
      refine ⟨a1, ?_, a3, a4⟩
      intro k2 hk2
      rcases List.mem_cons.mp hk2 with h | h
      · subst h; exact a1 _ hk
      · exact a2 k2 h
    · simp only [hk, if_false]
      have hlt := unmarked_card_lt g s k marked mk hsub hs hk hedge
      obtain ⟨b1, b2, b3, b4⟩ := ih k mk (by omega)
      have hsub2 : ∀ x ∈ marked, x ∈ dfs ord g f k mk := fun x h => b1 x (hsub x h)
      have hreach2 : ∀ x ∈ dfs ord g f k mk, x ∉ marked → Reach g s x := by
        intro x hx hnm
        by_cases hxm : x ∈ mk
        · exact hreach x hxm hnm
        · exact Relation.ReflTransGen.head hedge (b3 x hx hxm)
      have hclosed2 : ∀ x ∈ dfs ord g f k mk, x ∉ marked → x ≠ s →
          ∀ y, hasEdge g x y = true → y ∈ dfs ord g f k mk := by
        intro x hx hnm hne y hy
        by_cases hxm : x ∈ mk
        · exact b1 y (hclosed x hxm hnm hne y hy)
        · exact b4 x hx hxm y hy
      obtain ⟨a1, a2, a3, a4⟩ := ihks (dfs ord g f k mk) hks2 hsub2 (b1 s hs) hreach2 hclosed2
      refine ⟨fun x h => a1 x (b1 x h), ?_, a3, a4⟩
      intro k2 hk2
      rcases List.mem_cons.mp hk2 with h | h
      · subst h; exact a1 _ b2
      · exact a2 k2 h

/-- A call `dfs(s)` with more fuel than there are unmarked edge targets meets
`DfsSpec`: the bound on the depth of the recursion is never reached. -/
theorem dfs_spec (ord : List Nat → List Nat) (hord : ∀ l, (ord l).Perm l) (g : graph) :
    ∀ (f s : Nat) (marked : List Nat),
      ((targets g).toFinset \ insert s marked.toFinset).card < f →
      DfsSpec g s marked (dfs ord g f s marked) := by
  intro f
  induction f with
  | zero => intro s marked h; omega
  | succ f ih =>
    intro s marked hreq
    have hs0 : s ∈ setInsert marked s := (mem_setInsert marked s s).mpr (Or.inr rfl)
    obtain ⟨a1, a2, a3, a4⟩ := dfs_fold ord g f s marked hreq ih (neighbors ord g s)
      (setInsert marked s)
      (fun k h => (neighbors_mem ord hord g s k).mp h)
      (fun x h => (mem_setInsert marked s x).mpr (Or.inl h)) hs0
      (fun x hx hnm => by
        rcases (mem_setInsert marked s x).mp hx with h | h
        · exact absurd h hnm
        · subst h; exact Relation.ReflTransGen.refl)
      (fun x hx hnm hne => by
        rcases (mem_setInsert marked s x).mp hx with h | h
        · exact absurd h hnm
        · exact absurd h hne)
    unfold DfsSpec
    simp only [dfs]
    refine ⟨fun x h => a1 x ((mem_setInsert marked s x).mpr (Or.inl h)), a1 s hs0, a3, ?_⟩
    intro x hx hnm y hy
    by_cases hxs : x = s
    · subst hxs
      exact a2 y ((neighbors_mem ord hord g x y).mpr hy)
    · exact a4 x hx hnm hxs y hy

/-- The loop `for _, src := range srcs` of `multipleSrcReach` over the seeds still
to visit, started with marks that are closed under the edges. -/
theorem multipleSrcReach_fold (ord : List Nat → List Nat) (hord : ∀ l, (ord l).Perm l)
    (g : graph) :
    ∀ (srcs mk : List Nat), (∀ x ∈ mk, ∀ y, hasEdge g x y = true → y ∈ mk) →
      (∀ x ∈ mk, x ∈ srcs.foldl
        (fun mk src => if src ∈ mk then mk else dfs ord g (dfsFuel g) src mk) mk) ∧
      (∀ s ∈ srcs, s ∈ srcs.foldl
        (fun mk src => if src ∈ mk then mk else dfs ord g (dfsFuel g) src mk) mk) ∧
      (∀ x ∈ srcs.foldl
        (fun mk src => if src ∈ mk then mk else dfs ord g (dfsFuel g) src mk) mk,
        ∀ y, hasEdge g x y = true → y ∈ srcs.foldl
          (fun mk src => if src ∈ mk then mk else dfs ord g (dfsFuel g) src mk) mk) ∧
      (∀ x ∈ srcs.foldl
        (fun mk src => if src ∈ mk then mk else dfs ord g (dfsFuel g) src mk) mk,
        x ∈ mk ∨ ∃ s ∈ srcs, Reach g s x) := by
  intro srcs
  induction srcs with
  | nil => intro mk hc; exact ⟨fun x h => h, fun s h => absurd h (List.not_mem_nil s), hc,
      fun x h => Or.inl h⟩
  | cons src srcs ih =>
    intro mk hc
    simp only [List.foldl_cons]
    by_cases hm : src ∈ mk
    · simp only [hm, if_true]
      obtain ⟨a1, a2, a3, a4⟩ := ih mk hc
      refine ⟨a1, ?_, a3, ?_⟩
      · intro s hs
        rcases List.mem_cons.mp hs with h | h
        · subst h; exact a1 _ hm
        · exact a2 s h
      · intro x hx
        rcases a4 x hx with h | ⟨s, hs, hr⟩
        · exact Or.inl h
        · exact Or.inr ⟨s, List.mem_cons_of_mem _ hs, hr⟩
    · simp only [hm, if_false]
      have hfuel : ((targets g).toFinset \ insert src mk.toFinset).card < dfsFuel g := by
        rw [dfsFuel_eq]
        have h1 := Finset.card_le_card
          (Finset.sdiff_subset : (targets g).toFinset \ insert src mk.toFinset ⊆ (targets g).toFinset)
        have h2 := List.toFinset_card_le (targets g)
        omega
      obtain ⟨b1, b2, b3, b4⟩ := dfs_spec ord hord g (dfsFuel g) src mk hfuel
      have hc2 : ∀ x ∈ dfs ord g (dfsFuel g) src mk, ∀ y, hasEdge g x y = true →
          y ∈ dfs ord g (dfsFuel g) src mk := by
        intro x hx y hy
        by_cases hxm : x ∈ mk
        · exact b1 y (hc x hxm y hy)
        · exact b4 x hx hxm y hy
      obtain ⟨a1, a2, a3, a4⟩ := ih (dfs ord g (dfsFuel g) src mk) hc2
      refine ⟨fun x h => a1 x (b1 x h), ?_, a3, ?_⟩
      · intro s hs
        rcases List.mem_cons.mp hs with h | h
        · subst h; exact a1 _ b2
        · exact a2 s h
      · intro x hx
        rcases a4 x hx with h | ⟨s, hs, hr⟩
        · by_cases hxm : x ∈ mk
          · exact Or.inl hxm
          · exact Or.inr ⟨src, List.mem_cons_self _ _, b3 x h hxm⟩
        · exact Or.inr ⟨s, List.mem_cons_of_mem _ hs, hr⟩

theorem reach_closed (g : graph) (R : List Nat)
    (hc : ∀ x ∈ R, ∀ y, hasEdge g x y = true → y ∈ R) (s p : Nat) (hs : s ∈ R)
    (hr : Reach g s p) : p ∈ R := by
  induction hr with
  | refl => exact hs
  | tail _ hbc ih => exact hc _ ih _ hbc

/-! ## Patterns whose first metacharacter closes a group or a class -/

/-- A position that holds no metacharacter and is not followed by a repetition
operator leaves the state of the loop unchanged, whatever else follows it. -/
theorem buildStep_skip (ord : List Nat → List Nat) (re : List Nat) (i : Nat) (st : BuildState)
    (hi : i < re.length) (hc : metaChar re[i] = false)
    (hn : ∀ h : i + 1 < re.length,
      re[i + 1] ≠ STAR ∧ re[i + 1] ≠ PLUS ∧ re[i + 1] ≠ QUESTION) :
    buildStep ord re i st = .ok st := by
  have h1 := idx_of_lt re i hi
  have hm := hc
  simp only [metaChar, Bool.or_eq_false_iff, beq_eq_false_iff_ne] at hc
  obtain ⟨⟨⟨⟨⟨⟨⟨c1, c2⟩, c3⟩, c4⟩, c5⟩, c6⟩, c7⟩, c8⟩ := hc
  have hsw : switchOp ord re i re[i] st = .ok (i, st) := by
    simp [switchOp, c1, c2, c3, c4, c5]
  have hrep : switchRep re i i st.g = .ok st.g := by
    unfold switchRep
    split
    · rename_i hlt
      have hlt2 : i + 1 < re.length := by omega
      obtain ⟨d6, d7, d8⟩ := hn hlt2
      simp [idx_of_lt re (i + 1) hlt2, d6, d7, d8]
    · rfl
  simp [buildStep, h1, hsw, hrep, hm]

/-- On the empty stack a `)` or a `]` makes the iteration panic: `ops.top()` or
`ops.pop()` indexes the empty slice. -/
theorem buildStep_closer (ord : List Nat → List Nat) (re : List Nat) (i : Nat) (st : BuildState)
    (hi : i < re.length) (hc : re[i] = RPAREN ∨ re[i] = RBRACKET) (ho : st.ops = []) :
    buildStep ord re i st = .error .indexOutOfRange := by
  rcases hc with h | h
  · simp [buildStep, idx_of_lt re i hi, h, switchOp, ho, popOrs]
  · simp [buildStep, idx_of_lt re i hi, h, switchOp, ho, pop]

theorem getElem_mid (pre post : List Nat) (c i : Nat) (e : i = pre.length)
    (h : i < (pre ++ c :: post).length) : (pre ++ c :: post)[i] = c := by
  subst e
  rw [List.getElem_append_right (le_refl _)]
  simp

/-- The loop of `buildNFA` on a pattern whose first metacharacter is a `)` or a
`]`: it reaches that position with the stack still empty and panics there. -/
theorem buildLoop_closer (ord : List Nat → List Nat) (pre post : List Nat) (c : Nat)
    (st : BuildState) (hpre : ∀ b ∈ pre, metaChar b = false)
    (hc : c = RPAREN ∨ c = RBRACKET) (ho : st.ops = []) :
    ∀ d i n, i + d = pre.length → i + n = (pre ++ c :: post).length →
      buildLoop ord (pre ++ c :: post) n i st = .error .indexOutOfRange := by
  intro d
  induction d with
  | zero =>
    intro i n hi hn
    have hi2 : i = pre.length := by omega
    subst hi2
    have hlen : pre.length < (pre ++ c :: post).length := by simp
    obtain ⟨n, rfl⟩ : ∃ m, n = m + 1 := ⟨n - 1, by omega⟩
    have hci : (pre ++ c :: post)[pre.length] = c := getElem_mid pre post c _ rfl hlen
    simp [buildLoop, buildStep_closer ord (pre ++ c :: post) pre.length st hlen (by rw [hci]; exact hc) ho]
  | succ d ih =>
    intro i n hi hn
    have hip : i < pre.length := by omega
    have hlen : i < (pre ++ c :: post).length := by rw [List.length_append]; omega
    obtain ⟨n, rfl⟩ : ∃ m, n = m + 1 := ⟨n - 1, by omega⟩
    have hci : (pre ++ c :: post)[i] = pre[i] := List.getElem_append_left hip
    have hstep : buildStep ord (pre ++ c :: post) i st = .ok st := by
      apply buildStep_skip ord _ i st hlen
      · rw [hci]; exact hpre _ (List.getElem_mem hip)
      · intro h
        by_cases hnext : i + 1 < pre.length
        · have e : (pre ++ c :: post)[i + 1] = pre[i + 1] := List.getElem_append_left hnext
          have hm := hpre _ (List.getElem_mem hnext)
          rw [e]
          simp only [metaChar, Bool.or_eq_false_iff, beq_eq_false_iff_ne] at hm
          exact ⟨hm.1.1.2, hm.1.2, hm.2⟩
        · have e1 : i + 1 = pre.length := by omega
          have e : (pre ++ c :: post)[i + 1] = c := getElem_mid pre post c _ e1 h
          rw [e]
          rcases hc with h2 | h2 <;> subst h2 <;> decide
    simp only [buildLoop, hstep]
    exact ih (i + 1) n (by omega) (by omega)

/-! ## The class map and the totality of the simulation -/

theorem lookup_mem_class (mp : List (Nat × Nat)) (k v : Nat) (h : mp.lookup k = some v) :
    (k, v) ∈ mp := by
  induction mp with
  | nil => simp at h
  | cons e mp ih =>
    obtain ⟨k0, v0⟩ := e
    by_cases hk : k = k0
    · subst hk
      simp [List.lookup] at h
      simp [h]
    · have hk2 : (k == k0) = false := by simpa using hk
      simp only [List.lookup, hk2] at h
      exact List.mem_cons_of_mem _ (ih h)

theorem mem_mapSet (mp : List (Nat × Nat)) (j v k r : Nat) (h : (k, r) ∈ mapSet mp j v) :
    (k, r) ∈ mp ∨ k = j := by
  induction mp with
  | nil =>
    simp [mapSet] at h
    exact Or.inr h.1
  | cons e mp ih =>
    obtain ⟨k0, v0⟩ := e
    unfold mapSet at h
    split_ifs at h with hk
    · rcases List.mem_cons.mp h with h1 | h1
      · exact Or.inr (by simpa using (Prod.mk.inj h1).1)
      · exact Or.inl (List.mem_cons_of_mem _ h1)
    · rcases List.mem_cons.mp h with h1 | h1
      · exact Or.inl (h1 ▸ List.mem_cons_self _ _)
      · rcases ih h1 with h2 | h2
        · exact Or.inl (List.mem_cons_of_mem _ h2)
        · exact Or.inr h2

/-- Recording the member `j` of a class that closes at `i` keeps the bound: `j`
is below `i`, and `re[i]` is `]`, not `-`. -/
theorem classBound_mapSet (re : List Nat) (r : List (Nat × Nat)) (i j : Nat)
    (hi : re[i]? = some RBRACKET) (hj : j < i) (hb : ClassBound re r) :
    ClassBound re (mapSet r j i) := by
  obtain ⟨hlt, hri⟩ := List.getElem?_eq_some.mp hi
  intro k v hk
  rcases mem_mapSet r j i k v hk with h | h
  · exact hb k v h
  · subst h
    refine ⟨by omega, fun hd => ?_⟩
    by_cases e : k + 1 = i
    · rw [e, hi] at hd
      exact absurd hd (by decide)
    · omega

/-- The loop of the case `]` keeps the bound on the class map. -/
theorem classLoop_bound (re : List Nat) (lp i : Nat) (hi : re[i]? = some RBRACKET) :
    ∀ (fuel j : Nat) (g g2 : graph) (r r2 : List (Nat × Nat)), ClassBound re r →
      classLoop re lp i fuel j g r = .ok (g2, r2) → ClassBound re r2 := by
  intro fuel
  induction fuel with
  | zero =>
    intro j g g2 r r2 hb h
    simp only [classLoop, Except.ok.injEq, Prod.mk.injEq] at h
    exact h.2 ▸ hb
  | succ fuel ih =>
    intro j g g2 r r2 hb h
    unfold classLoop at h
    by_cases hj : j < i
    · rw [if_pos hj] at h
      cases h1 : addEdge g lp j with
      | error e => simp [h1] at h
      | ok g1 =>
        cases h3 : idx re (j + 1) with
        | error e => simp [h1, h3] at h
        | ok b =>
          simp only [h1, h3] at h
          exact ih _ g1 g2 _ r2 (classBound_mapSet re r i j hi hj hb) h
    · rw [if_neg hj] at h
      simp only [Except.ok.injEq, Prod.mk.injEq] at h
      exact h.2 ▸ hb

/-- The first `switch` of the loop body keeps the bound on the class map. -/
theorem switchOp_bound (ord : List Nat → List Nat) (re : List Nat) (i c lp : Nat)
    (st st1 : BuildState) (hc : re[i]? = some c) (hb : ClassBound re st.rightIdx)
    (h : switchOp ord re i c st = .ok (lp, st1)) : ClassBound re st1.rightIdx := by
  unfold switchOp at h
  split_ifs at h with c1 c2 c3
  · simp only [Except.ok.injEq, Prod.mk.injEq] at h
    rw [← h.2]; exact hb
  · cases h1 : popOrs re st.ops [] with
    | error e => simp [h1] at h
    | ok p =>
      obtain ⟨ops1, ors⟩ := p
      cases h2 : pop ops1 with
      | error e => simp [h1, h2] at h
      | ok q =>
        obtain ⟨lp1, ops2⟩ := q
        cases h3 : orEdges lp1 i (ord ors) st.g with
        | error e => simp [h1, h2, h3] at h
        | ok g1 =>
          simp only [h1, h2, h3, Except.ok.injEq, Prod.mk.injEq] at h
          rw [← h.2]; exact hb
  · cases h1 : pop st.ops with
    | error e => simp [h1] at h
    | ok q =>
      obtain ⟨lp1, ops1⟩ := q
      cases h2 : classLoop re lp1 i (i - (lp1 + 1)) (lp1 + 1) st.g st.rightIdx with
      | error e => simp [h1, h2] at h
      | ok p =>
        obtain ⟨g1, r1⟩ := p
        simp only [h1, h2, Except.ok.injEq, Prod.mk.injEq] at h
        rw [← h.2]
        exact classLoop_bound re lp1 i (c3 ▸ hc) _ _ _ _ _ _ hb h2
  · simp only [Except.ok.injEq, Prod.mk.injEq] at h
    rw [← h.2]; exact hb

/-- One iteration of the loop of `buildNFA` keeps the bound on the class map. -/
theorem buildStep_bound (ord : List Nat → List Nat) (re : List Nat) (i : Nat)
    (st st2 : BuildState) (hb : ClassBound re st.rightIdx)
    (h : buildStep ord re i st = .ok st2) : ClassBound re st2.rightIdx := by
  unfold buildStep at h
  cases h0 : re[i]? with
  | none => simp [idx, h0] at h
  | some c =>
    have hidx : idx re i = .ok c := idx_of_getElem? re i c h0
    cases h1 : switchOp ord re i c st with
    | error e => simp [hidx, h1] at h
    | ok p =>
      obtain ⟨lp, st1⟩ := p
      have hb1 := switchOp_bound ord re i c lp st st1 h0 hb h1
      cases h2 : switchRep re i lp st1.g with
      | error e => simp [hidx, h1, h2] at h
      | ok g2 =>
        simp only [hidx, h1, h2] at h
        split_ifs at h
        · cases h3 : addEdge g2 i (i + 1) with
          | error e => simp [h3] at h
          | ok g3 =>
            simp only [h3, Except.ok.injEq] at h
            rw [← h]; exact hb1
        · simp only [Except.ok.injEq] at h
          rw [← h]; exact hb1

/-- The loop of `buildNFA`, from any state, keeps the bound on the class map. -/
theorem buildLoop_bound (ord : List Nat → List Nat) (re : List Nat) :
    ∀ (n i : Nat) (st st2 : BuildState), ClassBound re st.rightIdx →
      buildLoop ord re n i st = .ok st2 → ClassBound re st2.rightIdx := by
  intro n
  induction n with
  | zero =>
    intro i st st2 hb h
    simp only [buildLoop, Except.ok.injEq] at h
    exact h ▸ hb
  | succ n ih =>
    intro i st st2 hb h
    unfold buildLoop at h
    cases h1 : buildStep ord re i st with
    | error e => simp [h1] at h
    | ok st1 =>
      simp only [h1] at h
      exact ih (i + 1) st1 st2 (buildStep_bound ord re i st st1 hb h1) h

/-- Under the bound on the class map every read `re[k]`, `re[k+1]`, `re[k+2]` of
the scan is in range: the test of one active position returns. -/
theorem matchStep_ok (nfa : NFA) (hb : ClassBound nfa.re nfa.m) (c k : Nat) (mt : List Nat) :
    ∃ mt1, matchStep nfa c k mt = .ok mt1 := by
  unfold matchStep
  by_cases hk : k < nfa.re.length
  · rw [if_pos hk]
    cases hl : nfa.m.lookup k with
    | none =>
      simp only [idx_of_lt _ _ hk]
      split_ifs <;> exact ⟨_, rfl⟩
    | some r =>
      obtain ⟨h1, h2⟩ := hb k r (lookup_mem_class _ _ _ hl)
      simp only [idx_of_lt _ _ h1]
      by_cases hd : nfa.re[k + 1] = DASH
      · have h3 : k + 2 < nfa.re.length := h2 (by rw [List.getElem?_eq_getElem h1, hd])
        simp only [hd, if_true, idx_of_lt _ _ hk, idx_of_lt _ _ h3]
        split_ifs <;> exact ⟨_, rfl⟩
      · simp only [hd, if_false, idx_of_lt _ _ hk]
        split_ifs <;> exact ⟨_, rfl⟩
  · exact ⟨mt, by simp [hk]⟩

theorem scanKeys_ok (ord : List Nat → List Nat) (nfa : NFA) (hb : ClassBound nfa.re nfa.m)
    (c : Nat) : ∀ (ks mt pc : List Nat), ∃ r, scanKeys ord nfa c ks mt pc = .ok r := by
  intro ks
  induction ks with
  | nil => intro mt pc; exact ⟨some pc, rfl⟩
  | cons k ks ih =>
    intro mt pc
    obtain ⟨mt1, h1⟩ := matchStep_ok nfa hb c k mt
    simp only [scanKeys, h1]
    split_ifs
    · exact ⟨none, rfl⟩
    · exact ih _ _

theorem recognizeLoop_ok (ord : List Nat → List Nat) (nfa : NFA)
    (hb : ClassBound nfa.re nfa.m) :
    ∀ (txt pc : List Nat), ∃ b, recognizeLoop ord nfa txt pc = .ok b := by
  intro txt
  induction txt with
  | nil => intro pc; exact ⟨_, rfl⟩
  | cons c cs ih =>
    intro pc
    obtain ⟨r, hr⟩ := scanKeys_ok ord nfa hb c (ord pc) [] pc
    simp only [recognizeLoop, hr]
    cases r with
    | none => exact ⟨false, rfl⟩
    | some pc1 => exact ih pc1

theorem classBound_nil (re : List Nat) : ClassBound re [] :=
  fun _ _ h => absurd h (List.not_mem_nil _)

/-! ## The claims on malformed patterns, totality, the sparse set and the closure -/

/-- C11 (counterexample): on the malformed patterns `")"` and `"]"` the function
`buildNFA` returns no compile error; it panics with an index out of range, whatever
the enumeration order. -/
theorem malformed_pattern_panics :
    (∀ ord, buildNFA ord (bytes ")") = .error .indexOutOfRange) ∧
      (∀ ord, buildNFA ord (bytes "]") = .error .indexOutOfRange) :=
  ⟨fun _ => rfl, fun _ => rfl⟩

/-- C11 (amended): `buildNFA` checks no format and has no compile-error result.
On every pattern whose first metacharacter is a `)` or a `]`, a closer without
an opener, it panics with an index out of range: the stack `ops` is empty when
`ops.top()` or `ops.pop()` reads it. -/
theorem unmatched_closer_panics (ord : List Nat → List Nat) (pre post : List Nat) (c : Nat)
    (hpre : ∀ b ∈ pre, metaChar b = false) (hc : c = RPAREN ∨ c = RBRACKET) :
    buildNFA ord (pre ++ c :: post) = .error .indexOutOfRange := by
  have h := buildLoop_closer ord pre post c { g := [], ops := [], rightIdx := [] } hpre hc rfl
    pre.length 0 (pre ++ c :: post).length (by omega) (by omega)
  unfold buildNFA
  rw [h]

/-- C11 (amended) at the pattern `"AB)C"`. -/
theorem unmatched_closer_panics_witness :
    buildNFA id (bytes "AB" ++ RPAREN :: bytes "C") = .error .indexOutOfRange :=
  unmatched_closer_panics id (bytes "AB") (bytes "C") RPAREN (by decide) (Or.inl rfl)

/-- C12: matching is total.  For every automaton `buildNFA` returns and every
text, `recognize` returns a boolean, for every enumeration order, and every
position `k` recorded in the class map `m` of the automaton has `k+1 < len(re)`,
and `k+2 < len(re)` when `re[k+1]` is `-`.  Both hold for these reasons, which
do not depend on the graph: the loop of `buildNFA`, from any state (any graph,
any stack) whose class map meets the bound, records only positions that meet it;
and on every automaton whose class map meets the bound, whatever its graph,
every read `re[k]`, `re[k+1]`, `re[k+2]` of `recognize` is in range, so that
`recognize` returns a boolean on every text. -/
theorem recognize_total (ord : List Nat → List Nat) (re : List Nat) :
    (∀ nfa, buildNFA ord re = .ok nfa →
      ClassBound nfa.re nfa.m ∧ ∀ txt, ∃ b, recognize ord nfa txt = .ok b) ∧
      (∀ n i st st2, ClassBound re st.rightIdx → buildLoop ord re n i st = .ok st2 →
        ClassBound re st2.rightIdx) ∧
      (∀ g m, ClassBound re m →
        ∀ txt, ∃ b, recognize ord { g := g, re := re, m := m } txt = .ok b) := by
  have htotal : ∀ g m, ClassBound re m →
      ∀ txt, ∃ b, recognize ord { g := g, re := re, m := m } txt = .ok b :=
    fun g m hb txt => recognizeLoop_ok ord { g := g, re := re, m := m } hb txt _
  refine ⟨?_, buildLoop_bound ord re, htotal⟩
  intro nfa h
  unfold buildNFA at h
  cases hl : buildLoop ord re re.length 0 { g := [], ops := [], rightIdx := [] } with
  | error e => simp [hl] at h
  | ok st =>
    simp only [hl, Except.ok.injEq] at h
    subst h
    have hb := buildLoop_bound ord re re.length 0 _ st (classBound_nil re) hl
    exact ⟨hb, htotal st.g st.rightIdx hb⟩

/-- C12 on the class `"[A-Z]"`: the loop of `buildNFA`, run on a graph whose inner
maps exist, records the member 1 with the resume position 4; the class map meets
the bound, and `recognize` reads `re[2]`, `re[1]` and `re[3]` for the member and
returns a boolean on the text `"H"` (here `true`, the active set being enumerated
as `1, 0`).  A class map that breaks the bound makes `recognize` panic.  The
automaton `buildNFA` returns for `"A.C"` meets the bound and `recognize` returns a
boolean on every text. -/
theorem recognize_total_witness :
    wireAllocated id (bytes "[A-Z]")
        = .ok { g := [(0, [1]), (1, []), (2, []), (3, []), (4, [5])], ops := [],
                rightIdx := [(1, 4)] } ∧
      ClassBound (bytes "[A-Z]") [(1, 4)] ∧
      (∃ b, recognize List.reverse
        { g := [(0, [1]), (1, []), (2, []), (3, []), (4, [5])], re := bytes "[A-Z]",
          m := [(1, 4)] } (bytes "H") = .ok b) ∧
      recognize List.reverse
        { g := [(0, [1]), (1, []), (2, []), (3, []), (4, [5])], re := bytes "[A-Z]",
          m := [(1, 4)] } (bytes "H") = .ok true ∧
      recognize id { g := [], re := bytes "A", m := [(0, 1)] } (bytes "A")
        = .error .indexOutOfRange ∧
      (ClassBound (bytes "A.C") [] ∧
        ∀ txt, ∃ b, recognize id { g := [], re := bytes "A.C", m := [] } txt = .ok b) :=
  have hw : wireAllocated id (bytes "[A-Z]")
      = .ok { g := [(0, [1]), (1, []), (2, []), (3, []), (4, [5])], ops := [],
              rightIdx := [(1, 4)] } := by decide
  have hb : ClassBound (bytes "[A-Z]") [(1, 4)] :=
    (recognize_total id (bytes "[A-Z]")).2.1 (bytes "[A-Z]").length 0
      { g := allocated (bytes "[A-Z]").length, ops := [], rightIdx := [] } _
      (classBound_nil _) hw
  ⟨hw, hb, (recognize_total List.reverse (bytes "[A-Z]")).2.2 _ _ hb (bytes "H"),
    by decide, by decide,
    (recognize_total id (bytes "A.C")).1 { g := [], re := bytes "A.C", m := [] } (by decide)⟩

/-- C13: sparse-set membership is exact despite uninitialised storage.  For every
capacity `c` and arbitrary contents of `dense` and `sparse` (and an arbitrary
`n`), `clear()` followed by `add(x1)`, ..., `add(xk)` for pairwise distinct
`x1..xk` below `c` never panics, and afterwards `has(i)` returns `true` iff `i` is
one of `x1..xk`, for every `i` below `c`; right after `clear()` it returns `false`
for every `i` below `c`. -/
theorem sparse_membership_exact (c : Nat) (s0 : sparseSet) (hd : s0.dense.length = c)
    (hs : s0.sparse.length = c) (xs : List Nat) (hnd : xs.Nodup) (hx : ∀ x ∈ xs, x < c) :
    (∃ s, sparseSet.addAll s0.clear xs = .ok s ∧ s.n = xs.length ∧
      ∀ i, i < c → s.has i = .ok (decide (i ∈ xs))) ∧
      ∀ i, i < c → s0.clear.has i = .ok false := by
  have hinv0 : sparseSet.Inv c s0.clear [] :=
    ⟨hd, hs, rfl, fun j h => absurd h (by simp)⟩
  constructor
  · obtain ⟨s, hadd, hinv⟩ := sparseSet.addAll_inv c xs [] s0.clear hinv0 (by simpa using hnd)
      (by simpa using hx)
    have hinv2 : sparseSet.Inv c s xs := by simpa using hinv
    exact ⟨s, hadd, hinv2.2.2.1, fun i hi => sparseSet.has_of_inv c s xs i hinv2 hi⟩
  · intro i hi
    simpa using sparseSet.has_of_inv c s0.clear [] i hinv0 hi

/-- C13 at capacity 3 with stale contents: after `clear()`, `add(2)`, `add(0)` the
set holds 2 and 0 and does not hold 1. -/
theorem sparse_membership_exact_witness :
    ∃ s, sparseSet.addAll (sparseSet.clear { dense := [1, 1, 1], sparse := [0, 1, 0], n := 2 })
        [2, 0] = .ok s ∧ s.has 2 = .ok true ∧ s.has 0 = .ok true ∧ s.has 1 = .ok false := by
  obtain ⟨s, h1, _, h3⟩ := (sparse_membership_exact 3
    { dense := [1, 1, 1], sparse := [0, 1, 0], n := 2 } rfl rfl [2, 0] (by decide)
    (by decide)).1
  exact ⟨s, h1, by simpa using h3 2 (by omega), by simpa using h3 0 (by omega),
    by simpa using h3 1 (by omega)⟩

/-- C14 (counterexample): in the set that holds 0 (capacity 2), `has(0)` is `true`
and `add(0)` is no no-op: `n` goes from 1 to 2 and `iter` visits `0, 0` instead
of `0`. -/
theorem add_twice_overcounts :
    sparseSet.has { dense := [0, 0], sparse := [0, 0], n := 1 } 0 = .ok true ∧
      sparseSet.add { dense := [0, 0], sparse := [0, 0], n := 1 } 0
        = .ok { dense := [0, 0], sparse := [1, 0], n := 2 } ∧
      sparseSet.iter { dense := [0, 0], sparse := [0, 0], n := 1 } = .ok [0] ∧
      sparseSet.iter { dense := [0, 0], sparse := [1, 0], n := 2 } = .ok [0, 0] := by
  decide

/-- C14 (amended): `add` does not check `has`.  For every sparse set `s` with room
left (`n < len(dense)`) and every `i` in range with `s.has(i)` already `true`,
`s.add(i)` appends: `n` grows by one, `iter` visits the former sequence followed
by `i` once more, and `has(i)` stays `true`. -/
theorem add_present_appends (s : sparseSet) (i : Nat) (hn : s.n < s.dense.length)
    (hi : i < s.sparse.length) (_hhas : s.has i = .ok true) :
    ∃ s1 vs, s.add i = .ok s1 ∧ s1.n = s.n + 1 ∧ s.iter = .ok vs ∧
      s1.iter = .ok (vs ++ [i]) ∧ s1.has i = .ok true := by
  refine ⟨{ dense := s.dense.set s.n i, sparse := s.sparse.set i s.n, n := s.n + 1 },
    s.dense.take s.n, ?_, rfl, sparseSet.iter_eq s (by omega), ?_, ?_⟩
  · simp [sparseSet.add, setIdx, hn, hi]
  · rw [sparseSet.iter_eq _ (by simp; omega)]
    simp only [take_set_succ s.dense s.n i hn]
  · have e1 : (s.sparse.set i s.n)[i]? = some s.n := by simp [List.getElem?_set_self hi]
    have e2 : (s.dense.set s.n i)[s.n]? = some i := by simp [List.getElem?_set_self hn]
    simp [sparseSet.has, idx_of_getElem? _ _ _ e1, idx_of_getElem? _ _ _ e2]

/-- C14 (amended) at the set that holds 0, capacity 2, and `i = 0`. -/
theorem add_present_appends_witness :
    ∃ s1 vs, sparseSet.add { dense := [0, 0], sparse := [0, 0], n := 1 } 0 = .ok s1 ∧
      s1.n = 2 ∧ sparseSet.iter { dense := [0, 0], sparse := [0, 0], n := 1 } = .ok vs ∧
      s1.iter = .ok (vs ++ [0]) ∧ s1.has 0 = .ok true :=
  add_present_appends { dense := [0, 0], sparse := [0, 0], n := 1 } 0 (by decide) (by decide)
    (by decide)

/-- C15: the epsilon-closure is exactly reachability.  For every graph `g`,
cyclic or not, every list of seeds and every enumeration order,
`multipleSrcReach(g, seeds)` marks a position `p` iff `p` is reachable from some
seed by a path of zero or more edges of `g` (the bound on the depth of `dfs` is
never reached); every seed is in the result and the closure of the empty seed
list is empty. -/
theorem closure_is_reachability (ord : List Nat → List Nat) (hord : ∀ l, (ord l).Perm l)
    (g : graph) (srcs : List Nat) :
    (∀ p, p ∈ multipleSrcReach ord g srcs ↔ ∃ s ∈ srcs, Reach g s p) ∧
      (∀ s ∈ srcs, s ∈ multipleSrcReach ord g srcs) ∧ multipleSrcReach ord g [] = [] := by
  obtain ⟨_, a2, a3, a4⟩ := multipleSrcReach_fold ord hord g srcs []
    (fun x h => absurd h (List.not_mem_nil x))
  refine ⟨fun p => ⟨fun hp => ?_, ?_⟩, a2, rfl⟩
  · rcases a4 p hp with h | h
    · exact absurd h (List.not_mem_nil p)
    · exact h
  · rintro ⟨s, hs, hr⟩
    exact reach_closed g _ a3 s p (a2 s hs) hr

/-- C15 on the cyclic graph `0 -> 1`, `1 -> 0`, `1 -> 2` with the seed 0: the
position 2 is marked. -/
theorem closure_is_reachability_witness :
    2 ∈ multipleSrcReach id [(0, [1]), (1, [0, 2])] [0] :=
  ((closure_is_reachability id (fun l => List.Perm.refl l) [(0, [1]), (1, [0, 2])] [0]).1 2).mpr
    ⟨0, by simp, Relation.ReflTransGen.tail
      (Relation.ReflTransGen.single (show hasEdge [(0, [1]), (1, [0, 2])] 0 1 = true by decide))
      (show hasEdge [(0, [1]), (1, [0, 2])] 1 2 = true by decide)⟩

/-! ## The claims on the simulation and on the wiring -/

/-- C16: on the witness, pattern `"AB*C"` and text `"AC"`,
`buildNFA("AB*C").recognize("AC")` panics in `buildNFA` (assignment to an entry of
the nil inner map).  On the automaton the loop of `buildNFA` wires once the inner
maps exist (`1 -> 2`, `2 -> 1`, `2 -> 3`) the set simulation of the specification
accepts `"AC"`, while `recognize`, which recomputes `pc` and tests it for
emptiness after every single position, returns `false` when the active set is
enumerated as `1, 2, 3` and `true` when it is enumerated as `3, 2, 1`. -/
theorem set_simulation_faults :
    (∀ ord, run ord (bytes "AB*C") (bytes "AC") = .error .nilMapWrite) ∧
      wireAllocated id (bytes "AB*C")
        = .ok { g := [(0, []), (1, [2]), (2, [1, 3]), (3, [])], ops := [], rightIdx := [] } ∧
      specRecognize id { g := [(0, []), (1, [2]), (2, [1, 3]), (3, [])], re := bytes "AB*C", m := [] }
        (bytes "AC") = .ok true ∧
      recognize id { g := [(0, []), (1, [2]), (2, [1, 3]), (3, [])], re := bytes "AB*C", m := [] }
        (bytes "AC") = .ok false ∧
      recognize List.reverse
        { g := [(0, []), (1, [2]), (2, [1, 3]), (3, [])], re := bytes "AB*C", m := [] }
        (bytes "AC") = .ok true :=
  ⟨fun _ => rfl, by decide, by decide, by decide, by decide⟩

/-- C17: `buildNFA("(A)").recognize("(A")` and `buildNFA("A*").recognize("*")`
return no boolean: `buildNFA` panics (assignment to an entry of the nil inner
map).  The scan of `recognize` tests `re[k] == txt[i]` at every active position,
metacharacter or not: at the position 0 of `"(A)"` the text byte `(` adds the
resume position 1, and on the automaton the loop of `buildNFA` wires for `"(A)"`
once the inner maps exist (`0 -> 1`, `2 -> 3`) `recognize` accepts the text
`"(A"`. -/
theorem metachar_consumes_input :
    (∀ ord, run ord (bytes "(A)") (bytes "(A") = .error .nilMapWrite) ∧
      (∀ ord, run ord (bytes "A*") (bytes "*") = .error .nilMapWrite) ∧
      wireAllocated id (bytes "(A)")
        = .ok { g := [(0, [1]), (1, []), (2, [3])], ops := [], rightIdx := [] } ∧
      matchStep { g := [(0, [1]), (1, []), (2, [3])], re := bytes "(A)", m := [] } LPAREN 0 []
        = .ok [1] ∧
      recognize id { g := [(0, [1]), (1, []), (2, [3])], re := bytes "(A)", m := [] }
        (bytes "(A") = .ok true :=
  ⟨fun _ => rfl, fun _ => rfl, by decide, by decide, by decide⟩

/-- C18: `buildNFA("(A|B)C")` panics (assignment to an entry of the nil inner
map), so it builds no graph.  Run on a graph whose inner maps exist, the wiring
of the `)` at position 4 adds `2 -> 4` and, by `g.addEdge(lp, k+i)`, the edge
`0 -> 6`; the edge `0 -> 3` is not added. -/
theorem alternation_wiring_faults :
    (∀ ord, buildNFA ord (bytes "(A|B)C") = .error .nilMapWrite) ∧
      wireAllocated id (bytes "(A|B)C")
        = .ok { g := [(0, [1, 6]), (1, []), (2, [3, 4]), (3, []), (4, [5]), (5, [])],
                ops := [], rightIdx := [] } ∧
      hasEdge [(0, [1, 6]), (1, []), (2, [3, 4]), (3, []), (4, [5]), (5, [])] 2 4 = true ∧
      hasEdge [(0, [1, 6]), (1, []), (2, [3, 4]), (3, []), (4, [5]), (5, [])] 0 3 = false ∧
      hasEdge [(0, [1, 6]), (1, []), (2, [3, 4]), (3, []), (4, [5]), (5, [])] 0 6 = true :=
  ⟨fun _ => rfl, by decide, by decide, by decide, by decide⟩

/-- C19: `buildNFA("((A|B)C)*")` panics (assignment to an entry of the nil inner
map), so it builds no graph and the edges `0 -> 8` and `8 -> 0` do not exist.
Run on a graph whose inner maps exist, the wiring adds both. -/
theorem repetition_wiring_faults :
    (∀ ord, buildNFA ord (bytes "((A|B)C)*") = .error .nilMapWrite) ∧
      (∃ st, wireAllocated id (bytes "((A|B)C)*") = .ok st ∧
        hasEdge st.g 0 8 = true ∧ hasEdge st.g 8 0 = true) :=
  ⟨fun _ => rfl,
    ⟨{ g := [(0, [1, 8]), (1, [2, 8]), (2, []), (3, [4, 5]), (4, []), (5, [6]), (6, []),
            (7, [8]), (8, [0, 9])], ops := [], rightIdx := [] },
      by decide, by decide, by decide⟩⟩

/-- C20: `buildNFA("(A|B)")` panics (assignment to an entry of the nil inner map),
so it builds no graph.  Run on a graph whose inner maps exist, the wiring of the
`)` at position 4 adds, by `g.addEdge(lp, k+i)`, the edge `0 -> 6`, beyond
`M = 5`. -/
theorem positions_in_range_faults :
    (∀ ord, buildNFA ord (bytes "(A|B)") = .error .nilMapWrite) ∧
      (bytes "(A|B)").length = 5 ∧
      (∃ st, wireAllocated id (bytes "(A|B)") = .ok st ∧ hasEdge st.g 0 6 = true) :=
  ⟨fun _ => rfl, by decide,
    ⟨{ g := [(0, [1, 6]), (1, []), (2, [3, 4]), (3, []), (4, [5])], ops := [], rightIdx := [] },
      by decide, by decide⟩⟩

end Princeton
